import Mathlib

/-!
# Phonetisaurus: decoder input FSA, cluster map, path printing, alignment driver

A shallow embedding of `Phonetisaurus.cpp` (the decoder: `loadClusters`,
`entryToFSA`, `phoneticize`, `printPaths`) and of `phonetisaurus-align.cpp`
(the alignment driver: `load_input_file`, `write_alignments`, `main`).

Strings are lists of characters.  The OpenFst objects the code uses are
modelled by what the code observes of them: a symbol table is the list of
its symbols (the id of a symbol is its index), a `StdVectorFst` is its
number of states, start state, arcs in order of insertion and final weights.
The only arc and final weights the code writes are the literal `0`.
-/

namespace Phonetisaurus

/-! ## Strings and the distinguished symbols -/

/-- A `std::string`. -/
abbrev Str := List Char

/-- Sentence-begin symbol, `sb = "<s>"`. -/
def sb : Str := ['<', 's', '>']

/-- Sentence-end symbol, `se = "</s>"`. -/
def se : Str := ['<', '/', 's', '>']

/-- Cluster tie, `tie = "|"`. -/
def tie : Str := ['|']

/-- The condition `s.find(pat) != string::npos`: `pat` occurs in `s` as a substring. -/
def strFind : Str → Str → Bool
  | [], pat => pat.isPrefixOf []
  | c :: cs, pat => pat.isPrefixOf (c :: cs) || strFind cs pat

/-- The C string seen through `c_str()`: the characters before the first NUL. -/
def cstr (s : Str) : Str := s.takeWhile (fun c => c != Char.ofNat 0)

/-- Repeated `strtok(·, delims)` until it returns `NULL`: the maximal non-empty runs of
characters that are not delimiters, in order.  `cur` is the token being scanned. -/
def strtokLoop (delims : Str) : Str → Str → List Str
  | [], cur => if cur = [] then [] else [cur]
  | c :: cs, cur =>
    if c ∈ delims then
      if cur = [] then strtokLoop delims cs [] else cur :: strtokLoop delims cs []
    else strtokLoop delims cs (cur ++ [c])

/-- The tokens `strtok` yields for the symbol `sym` with the characters of `delims`
as delimiters (the `while (p)` loop of `loadClusters`). -/
def strtokAll (delims : Str) (sym : Str) : List Str := strtokLoop delims (cstr sym) []

/-! ## Symbol table -/

/-- An OpenFst `SymbolTable` with dense ids: the symbol with id `i` is entry `i`. -/
abbrev SymbolTable := List Str

/-- The lookup `Find(id)`: the symbol of an id, the empty string when there is none. -/
def findSymbol (t : SymbolTable) (i : Nat) : Str := t.getD i []

/-- Index of the first entry equal to `s`, counted from `i`. -/
def findIndexFrom (s : Str) : SymbolTable → Nat → Option Nat
  | [], _ => none
  | x :: xs, i => if x = s then some i else findIndexFrom s xs (i + 1)

/-- The lookup `Find(symbol)`: the id of a symbol, `kNoSymbol = -1` when it is absent. -/
def findId (t : SymbolTable) (s : Str) : Int :=
  match findIndexFrom s t 0 with
  | some i => (i : Int)
  | none => -1

/-! ## The cluster map: `std::map<vector<string>, int>` -/

/-- The algorithm `std::lexicographical_compare` over the element order `lt`. -/
def lexicographical_compare {α : Type} (lt : α → α → Bool) : List α → List α → Bool
  | [], [] => false
  | [], _ :: _ => true
  | _ :: _, [] => false
  | a :: as, b :: bs =>
    if lt a b then true
    else if lt b a then false
    else lexicographical_compare lt as bs

/-- The order of `char` within a `std::string`: by character code. -/
def charLess (a b : Char) : Bool := decide (a.toNat < b.toNat)

/-- The order `operator<` of `std::string`: lexicographic by character code. -/
def strLess : Str → Str → Bool := lexicographical_compare charLess

/-- The order `operator<` of `vector<string>`: lexicographic over `strLess`. -/
def vecLess : List Str → List Str → Bool := lexicographical_compare strLess

/-- A `std::map<vector<string>, int>`: its entries in iteration (key) order. -/
abbrev ClusterMap := List (List Str × Int)

/-- The assignment `m[key] = val`: insert at the place the key order gives, or
overwrite the value of the entry with an equivalent key. -/
def mapAssign (key : List Str) (val : Int) : ClusterMap → ClusterMap
  | [] => [(key, val)]
  | (k, v) :: rest =>
    if vecLess key k then (key, val) :: (k, v) :: rest
    else if vecLess k key then (k, v) :: mapAssign key val rest
    else (k, val) :: rest

/-- The lookup `m.find(key)`: the value of the entry whose key is equivalent to `key`. -/
def mapFind (key : List Str) : ClusterMap → Option Int
  | [] => none
  | (k, v) :: rest =>
    if vecLess key k then none
    else if vecLess k key then mapFind key rest
    else some v

/-- One round of the `for` loop of `loadClusters`, for the symbol id `i`. -/
def loadClustersStep (isyms : SymbolTable) (clusters : ClusterMap) (i : Nat) : ClusterMap :=
  let sym := findSymbol isyms i
  if strFind sym tie then mapAssign (strtokAll tie sym) (i : Int) clusters
  else clusters

/-- The method `Phonetisaurus::loadClusters`, run on an empty `clusters` map. -/
def loadClusters (isyms : SymbolTable) : ClusterMap :=
  (List.range isyms.length).foldl (loadClustersStep isyms) []

/-! ## FSTs -/

/-- An OpenFst `StdArc(ilabel, olabel, weight, nextstate)`. -/
structure StdArc where
  ilabel : Int
  olabel : Int
  weight : Int
  nextstate : Nat
  deriving DecidableEq

/-- A `StdVectorFst`: states are `0 .. numStates - 1`; `arcs` holds (source state, arc)
in order of insertion; `finals` holds the states given a final weight. -/
structure StdVectorFst where
  numStates : Nat
  start : Option Nat
  arcs : List (Nat × StdArc)
  finals : List (Nat × Int)
  deriving DecidableEq

/-- A freshly constructed `StdVectorFst`. -/
def StdVectorFst.empty : StdVectorFst := ⟨0, none, [], []⟩

/-- The call `AddState()`. -/
def StdVectorFst.AddState (f : StdVectorFst) : StdVectorFst :=
  { f with numStates := f.numStates + 1 }

/-- The call `SetStart(s)`. -/
def StdVectorFst.SetStart (f : StdVectorFst) (s : Nat) : StdVectorFst :=
  { f with start := some s }

/-- The call `AddArc(s, arc)`. -/
def StdVectorFst.AddArc (f : StdVectorFst) (s : Nat) (arc : StdArc) : StdVectorFst :=
  { f with arcs := f.arcs ++ [(s, arc)] }

/-- The call `SetFinal(s, w)`. -/
def StdVectorFst.SetFinal (f : StdVectorFst) (s : Nat) (w : Int) : StdVectorFst :=
  { f with finals := (f.finals.filter (fun p => p.1 != s)) ++ [(s, w)] }

/-! ## `entryToFSA` -/

/-- The algorithm `std::search(first, last, c.begin(), c.end())` on the positions of
`rest`, whose first element has index `pos`: the index of the first occurrence
of `cluster`, the index of the end when there is none. -/
def searchAux (cluster : List Str) : List Str → Nat → Nat
  | [], pos => pos
  | x :: xs, pos =>
    if cluster.isPrefixOf (x :: xs) then pos else searchAux cluster xs (pos + 1)

/-- The call `search(entry.begin() + start, entry.end(), cluster.begin(), cluster.end())`,
as an index into `entry` (`entry.length` stands for `entry.end()`). -/
def search (entry : List Str) (start : Nat) (cluster : List Str) : Nat :=
  searchAux cluster (entry.drop start) start

/-- Body of the `for` loop that builds the basic FSA, for the index `i`. -/
def basicStep (isyms : SymbolTable) (entry : List Str) (efst : StdVectorFst) (i : Nat) :
    StdVectorFst :=
  let efst := efst.AddState
  let ch := entry.getD i []
  efst.AddArc (i + 1) ⟨findId isyms ch, findId isyms ch, 0, i + 2⟩

/-- The `while (it_j != entry.end())` loop for one cluster, started at `start`.  At the
first test `it_j` is default-constructed and holds no position of `entry`: the test is
taken to let the body run (a value-initialised iterator is null and differs from the end
of a non-empty vector; on an empty `entry` the body adds nothing and ends the loop).
Every later test compares the result of `search`.  `fuel` bounds the number of rounds:
`none` means the loop has not finished within `fuel` rounds. -/
def clusterLoop (entry cluster : List Str) (id : Int) :
    Nat → Nat → StdVectorFst → Option StdVectorFst
  | 0, _, _ => none
  | fuel + 1, start, efst =>
    let it_j := search entry start cluster
    if it_j ≠ entry.length then
      clusterLoop entry cluster id fuel (it_j + cluster.length)
        (efst.AddArc (it_j + 1) ⟨id, id, 0, it_j + cluster.length + 1⟩)
    else some efst

/-- The `for` loop over `clusters` ("Add any cluster arcs"). -/
def addClusterArcs (entry : List Str) (fuel : Nat) : ClusterMap → StdVectorFst →
    Option StdVectorFst
  | [], efst => some efst
  | (cluster, id) :: rest, efst =>
    (clusterLoop entry cluster id fuel 0 efst).bind (addClusterArcs entry fuel rest)

/-- The part of `entryToFSA` before the cluster loop: start state, `<s>` arc and one
arc per token. -/
def basicFSA (isyms : SymbolTable) (entry : List Str) : StdVectorFst :=
  let efst := StdVectorFst.empty
  let efst := efst.AddState
  let efst := efst.SetStart 0
  let efst := efst.AddState
  let efst := efst.AddArc 0 ⟨findId isyms sb, findId isyms sb, 0, 1⟩
  (List.range entry.length).foldl (basicStep isyms entry) efst

/-- The part of `entryToFSA` after the cluster loop; `i` is `entry.size()` there. -/
def finishFSA (isyms : SymbolTable) (i : Nat) (efst : StdVectorFst) : StdVectorFst :=
  let efst := efst.AddState
  let efst := efst.AddArc (i + 1) ⟨findId isyms se, findId isyms se, 0, i + 2⟩
  efst.SetFinal (i + 2) 0

/-- The method `Phonetisaurus::entryToFSA`.  Each cluster's `while` loop may run `fuel`
rounds; `none` means that some loop has not finished within them.  The closing calls
`SetInputSymbols`, `SetOutputSymbols` and `Write` change no state, arc or final weight
and are left out. -/
def entryToFSA (isyms : SymbolTable) (clusters : ClusterMap) (fuel : Nat)
    (entry : List Str) : Option StdVectorFst :=
  (addClusterArcs entry fuel clusters (basicFSA isyms entry)).map
    (finishFSA isyms entry.length)

/-! ## `phoneticize` and `printPaths` -/

/-- A `PathData`: cost and token sequence of one path.  `W` is the type of costs. -/
structure PathData (W : Type) where
  pathcost : W
  path : List Str

/-- The OpenFst and `FstPathFinder` calls of `phoneticize`, which are not part of this
code: composition with `g2pmodel`, output projection, n-shortest paths, epsilon removal
and path enumeration.  `F` is the type of the FSTs they work on. -/
structure DecoderOps (F W : Type) where
  Compose : StdVectorFst → F
  Project : F → F
  ShortestPath : F → Nat → F
  RmEpsilon : F → F
  findAllStrings : F → List (PathData W)

/-- The method `Phonetisaurus::phoneticize`; `none` as for `entryToFSA`. -/
def phoneticize {F W : Type} (ops : DecoderOps F W) (isyms : SymbolTable)
    (clusters : ClusterMap) (fuel : Nat) (entry : List Str) (nbest : Int) :
    Option (List (PathData W)) :=
  (entryToFSA isyms clusters fuel entry).map fun efst =>
    let result := ops.Compose efst
    let result := ops.Project result
    let shortest := if nbest > 1 then ops.ShortestPath result 500
      else ops.ShortestPath result 1
    let shortest := ops.RmEpsilon shortest
    ops.findAllStrings shortest

/-- The algorithm `std::replace(s.begin(), s.end(), old, new)`. -/
def replaceChar (s : Str) (old new : Char) : Str :=
  s.map fun c => if c = old then new else c

/-- Body of the inner `for` loop of `printPaths`, for the index `j`. -/
def renderStep (path : List Str) (onepath : Str) (j : Nat) : Str :=
  let tok := path.getD j []
  let tok := if tok ≠ tie then replaceChar tok '|' ' ' else tok
  let onepath := onepath ++ tok
  if j ≠ path.length - 1 then onepath ++ [' '] else onepath

/-- The string `onepath` that `printPaths` builds for one path. -/
def renderPath (path : List Str) : Str :=
  (List.range path.length).foldl (renderStep path) []

/-- The line `printPaths` writes for one path; `fmt` is the text `cout` gives a cost. -/
def printLine {W : Type} (fmt : W → Str) (correct : Str) (p : PathData W) : Str :=
  fmt p.pathcost ++ ['\t'] ++ renderPath p.path
    ++ (if correct ≠ [] then '\t' :: correct else []) ++ ['\n']

/-- The outer `for` loop of `printPaths` from index `k` on; `out` is what `cout` holds. -/
def printLoop {W : Type} (fmt : W → Str) (nbest : Nat) (correct : Str) :
    Nat → List (PathData W) → Str → Str
  | _, [], out => out
  | k, p :: rest, out =>
    if k ≥ nbest then out
    else printLoop fmt nbest correct (k + 1) rest (out ++ printLine fmt correct p)

/-- The method `Phonetisaurus::printPaths`: the text written to `cout`.  The test
`k >= nbest` compares as `size_t`, hence the reduction of `nbest` modulo `2^64`. -/
def printPaths {W : Type} (fmt : W → Str) (paths : List (PathData W)) (nbest : Int)
    (correct : Str) : Str :=
  printLoop fmt (nbest % 2 ^ 64).toNat correct 0 paths []

/-! ## The alignment driver -/

/-- What has been written to the output file and to `cout`. -/
structure Output where
  ofile : Str
  cout : Str
  deriving DecidableEq

/-- The statement `if (ofile) ofile << s; else cout << s;`. -/
def emit (ofileOk : Bool) (out : Output) (s : Str) : Output :=
  if ofileOk then { out with ofile := out.ofile ++ s } else { out with cout := out.cout ++ s }

/-- Body of the loop over `k` in `write_alignments`, for path index `j`. -/
def writeSymbol (ofileOk : Bool) (j : Nat) (path : List Str) (out : Output) (k : Nat) :
    Output :=
  let out := emit ofileOk out (path.getD k [])
  if j < path.length then emit ofileOk out [' '] else out

/-- The loop over `j` in `write_alignments` from index `j` on. -/
def writePaths {W : Type} (ofileOk : Bool) : Nat → List (PathData W) → Output → Output
  | _, [], out => out
  | j, p :: rest, out =>
    let out := (List.range p.path.length).foldl (writeSymbol ofileOk j p.path) out
    writePaths ofileOk (j + 1) rest (emit ofileOk out ['\n'])

/-- Body of the loop over `i` in `write_alignments`.  A pruned lattice is given by what
the code reads of it: `NumStates()` and the paths `findAllStrings` finds in it. -/
def writeLattice {W : Type} (ofileOk : Bool) (out : Output)
    (tfst : Nat × List (PathData W)) : Output :=
  let paths := if tfst.1 > 0 then tfst.2 else []
  writePaths ofileOk 0 paths out

/-- The function `write_alignments`, on the pruned lattices of `aligner->fsas` in order. -/
def write_alignments {W : Type} (ofileOk : Bool) (lattices : List (Nat × List (PathData W))) :
    Output :=
  lattices.foldl (writeLattice ofileOk) ⟨[], []⟩

/-- An exception that leaves the function. -/
inductive Failure where
  | out_of_range
  deriving DecidableEq

/-- The access `v.at(i)`, which throws `std::out_of_range` for `i >= v.size()`. -/
def vecAt (v : List Str) (i : Nat) : Except Failure Str :=
  match v.get? i with
  | some x => .ok x
  | none => .error Failure.out_of_range

/-- Body of the `while` loop of `load_input_file` for one line read by `getline`.
`tokenize` stands for `tokenize_utf8_string` of `util.hpp`; `calls` lists the argument
pairs of the calls of `aligner->entry2alignfst` so far. -/
def loadLine (tokenize : Str → Str → List Str) (delim s1_char_delim s2_char_delim : Str)
    (calls : List (List Str × List Str)) (line : Str) :
    Except Failure (List (List Str × List Str)) :=
  if line = [] then .ok calls
  else
    let tokens := tokenize line delim
    match vecAt tokens 0 with
    | .error e => .error e
    | .ok field1 =>
      let seq1 := tokenize field1 s1_char_delim
      match vecAt tokens 1 with
      | .error e => .error e
      | .ok field2 =>
        let seq2 := tokenize field2 s2_char_delim
        .ok (calls ++ [(seq1, seq2)])

/-- The loop of `load_input_file` over the lines still to read. -/
def loadLines (tokenize : Str → Str → List Str) (delim s1_char_delim s2_char_delim : Str) :
    List Str → List (List Str × List Str) → Except Failure (List (List Str × List Str))
  | [], calls => .ok calls
  | line :: rest, calls =>
    match loadLine tokenize delim s1_char_delim s2_char_delim calls line with
    | .error e => .error e
    | .ok calls => loadLines tokenize delim s1_char_delim s2_char_delim rest calls

/-- The function `load_input_file`: `file` is `none` when the file cannot be opened,
else the lines `getline` reads.  The result lists the calls of `entry2alignfst`. -/
def load_input_file (tokenize : Str → Str → List Str) (file : Option (List Str))
    (delim s1_char_delim s2_char_delim : Str) :
    Except Failure (List (List Str × List Str)) :=
  match file with
  | none => .ok []
  | some lines => loadLines tokenize delim s1_char_delim s2_char_delim lines []

/-- Scanning loop of `splitFields`; `cur` is the field being read. -/
def splitLoop (delim : Char) : Str → Str → List Str
  | [], cur => [cur]
  | c :: cs, cur => if c = delim then cur :: splitLoop delim cs [] else splitLoop delim cs (cur ++ [c])

/-- Modelled from the spec: `tokenize_utf8_string` of `util.hpp`, which is not among the
sources.  The spec has "two fields separated by `delim`" and, for an empty delimiter,
a split "per Unicode codepoint": with no delimiter every character is a token, else the
tokens are the pieces between the occurrences of the (one-character) delimiter. -/
def splitFields (s : Str) (delim : Str) : List Str :=
  match delim with
  | [] => s.map fun c => [c]
  | d :: _ => splitLoop d s []

/-- The function `main` of `phonetisaurus-align`.  `run` stands for everything between
loading and returning: the EM loop and `compileNBestFarArchive` or `write_alignments`,
given the loaded pairs.  The result is the value `main` returns, or the exception that
ends it. -/
def main (tokenize : Str → Str → List Str) (file : Option (List Str))
    (delim s1_char_delim s2_char_delim : Str)
    (run : List (List Str × List Str) → Except Failure Unit) : Except Failure Int :=
  match load_input_file tokenize file delim s1_char_delim s2_char_delim with
  | .error e => .error e
  | .ok calls =>
    match run calls with
    | .error e => .error e
    | .ok _ => .ok 1

/-! ## Notions used to state the properties -/

/-- The arc `entryToFSA` adds for the token at index `i` of `entry`. -/
def tokenArc (isyms : SymbolTable) (entry : List Str) (i : Nat) : Nat × StdArc :=
  (i + 1, ⟨findId isyms (entry.getD i []), findId isyms (entry.getD i []), 0, i + 2⟩)

/-- The arc `p+1 → p+1+|c|` with input and output label `k` and weight `0`. -/
def clusterArc (c : List Str) (k : Int) (p : Nat) : Nat × StdArc :=
  (p + 1, ⟨k, k, 0, p + 1 + c.length⟩)

/-- The sequence `c` occurs in `tokens` as a contiguous subsequence at position `p`. -/
def occursAt (c tokens : List Str) (p : Nat) : Prop :=
  p + c.length ≤ tokens.length ∧ (tokens.drop p).take c.length = c

instance (c tokens : List Str) (p : Nat) : Decidable (occursAt c tokens p) := by
  unfold occursAt; infer_instance

/-- The positions at which the `while` loop of `entryToFSA` adds an arc for `cluster`,
from `start` on, within `fuel` rounds. -/
def loopPositions (entry cluster : List Str) : Nat → Nat → List Nat
  | 0, _ => []
  | fuel + 1, start =>
    let it_j := search entry start cluster
    if it_j ≠ entry.length then it_j :: loopPositions entry cluster fuel (it_j + cluster.length)
    else []

/-- The arcs that the `while` loop of `entryToFSA` adds for one entry of `clusters`. -/
def clusterArcsOf (entry : List Str) (fuel : Nat) (e : List Str × Int) : List (Nat × StdArc) :=
  (loopPositions entry e.1 fuel 0).map (clusterArc e.1 e.2)

/-- The entries of a cluster map stand in strictly increasing key order. -/
def sortedKeys (m : ClusterMap) : Prop :=
  m.Pairwise (fun a b => vecLess a.1 b.1 = true)

/-- The symbol with id `i` is a cluster symbol: it contains the tie. -/
def isClusterId (isyms : SymbolTable) (i : Nat) : Prop :=
  strFind (findSymbol isyms i) tie = true

/-- The token sequence `loadClusters` computes for the symbol with id `i`. -/
def clusterOf (isyms : SymbolTable) (i : Nat) : List Str :=
  strtokAll tie (findSymbol isyms i)

/-! ## Example inputs -/

/-- A symbol table with the cluster symbols `a|a` (id 4) and `t|h` (id 8). -/
def exampleSyms : SymbolTable :=
  [['<', 'e', 'p', 's', '>'], sb, se, ['a'], ['a', '|', 'a'], ['t'], ['h'], ['e'],
    ['t', '|', 'h']]

/-- A symbol table whose symbol with id 4 is the tie alone. -/
def tieSyms : SymbolTable :=
  [['<', 'e', 'p', 's', '>'], sb, se, ['a'], ['|']]

/-- A symbol table with two cluster symbols that `strtok` splits alike. -/
def doubleTieSyms : SymbolTable :=
  [['a', '|', 'b'], ['a', '|', '|', 'b']]

/-- The decoder operations that return the number of arcs of the input FSA as the cost
of a single empty path; they serve to run `phoneticize` on an example. -/
def countingOps : DecoderOps StdVectorFst Nat :=
  ⟨id, id, fun f _ => f, id, fun f => [⟨f.arcs.length, []⟩]⟩

/-! # Theorems -/

/-! ## The key order of the cluster map -/

section Lex

variable {α : Type} (lt : α → α → Bool)

theorem lex_irrefl (hirr : ∀ a, lt a a = false) (l : List α) :
    lexicographical_compare lt l l = false := by
  induction l with
  | nil => rfl
  | cons a as ih => simp [lexicographical_compare, hirr, ih]

theorem lex_eq_of_not_less (htri : ∀ a b, lt a b = false → lt b a = false → a = b) :
    ∀ (l m : List α), lexicographical_compare lt l m = false →
      lexicographical_compare lt m l = false → l = m := by
  intro l
  induction l with
  | nil =>
    intro m h1 h2
    cases m with
    | nil => rfl
    | cons b bs => simp [lexicographical_compare] at h1
  | cons a as ih =>
    intro m h1 h2
    cases m with
    | nil => simp [lexicographical_compare] at h2
    | cons b bs =>
      unfold lexicographical_compare at h1 h2
      cases hab : lt a b <;> cases hba : lt b a <;> simp [hab, hba] at h1 h2
      rw [htri a b hab hba, ih bs h1 h2]

theorem lex_trans
    (htrans : ∀ a b c, lt a b = true → lt b c = true → lt a c = true)
    (htri : ∀ a b, lt a b = false → lt b a = false → a = b) :
    ∀ (l m n : List α), lexicographical_compare lt l m = true →
      lexicographical_compare lt m n = true → lexicographical_compare lt l n = true := by
  intro l
  induction l with
  | nil =>
    intro m n h1 h2
    cases m with
    | nil => simp [lexicographical_compare] at h1
    | cons b bs =>
      cases n with
      | nil => simp [lexicographical_compare] at h2
      | cons c cs => simp [lexicographical_compare]
  | cons a as ih =>
    intro m n h1 h2
    cases m with
    | nil => simp [lexicographical_compare] at h1
    | cons b bs =>
      cases n with
      | nil => simp [lexicographical_compare] at h2
      | cons c cs =>
        unfold lexicographical_compare at h1 h2 ⊢
        cases hab : lt a b
        · cases hba : lt b a
          · have e := htri a b hab hba
            subst e
            simp only [hab, hba, Bool.false_eq_true, if_false] at h1
            cases hac : lt a c
            · cases hca : lt c a
              · simp only [hac, hca, Bool.false_eq_true, if_false] at h2 ⊢
                exact ih bs cs h1 h2
              · simp [hac, hca] at h2
            · simp
          · simp [hab, hba] at h1
        · cases hbc : lt b c
          · cases hcb : lt c b
            · have e := htri b c hbc hcb
              subst e
              simp [hab]
            · simp [hbc, hcb] at h2
          · simp [htrans a b c hab hbc]

end Lex

theorem charLess_irrefl (a : Char) : charLess a a = false := by simp [charLess]

theorem charLess_trans (a b c : Char) (h1 : charLess a b = true) (h2 : charLess b c = true) :
    charLess a c = true := by
  simp only [charLess, decide_eq_true_eq] at *
  omega

theorem charLess_tri (a b : Char) (h1 : charLess a b = false) (h2 : charLess b a = false) :
    a = b := by
  simp only [charLess, decide_eq_false_iff_not] at *
  have h : a.toNat = b.toNat := by omega
  apply Char.ext
  apply UInt32.ext
  exact h

theorem strLess_irrefl (a : Str) : strLess a a = false := lex_irrefl charLess charLess_irrefl a

theorem strLess_tri (a b : Str) (h1 : strLess a b = false) (h2 : strLess b a = false) : a = b :=
  lex_eq_of_not_less charLess charLess_tri a b h1 h2

theorem strLess_trans (a b c : Str) (h1 : strLess a b = true) (h2 : strLess b c = true) :
    strLess a c = true :=
  lex_trans charLess charLess_trans charLess_tri a b c h1 h2

theorem vecLess_irrefl (a : List Str) : vecLess a a = false := lex_irrefl strLess strLess_irrefl a

theorem vecLess_tri (a b : List Str) (h1 : vecLess a b = false) (h2 : vecLess b a = false) :
    a = b :=
  lex_eq_of_not_less strLess strLess_tri a b h1 h2

theorem vecLess_trans (a b c : List Str) (h1 : vecLess a b = true) (h2 : vecLess b c = true) :
    vecLess a c = true :=
  lex_trans strLess strLess_trans strLess_tri a b c h1 h2

/-! ## The basic FSA -/

theorem foldl_basicStep (isyms : SymbolTable) (entry : List Str) (m : Nat) (f : StdVectorFst) :
    (List.range m).foldl (basicStep isyms entry) f
      = ⟨f.numStates + m, f.start, f.arcs ++ (List.range m).map (tokenArc isyms entry),
          f.finals⟩ := by
  induction m with
  | zero => simp
  | succ m ih =>
    rw [List.range_succ, List.foldl_append, ih]
    simp [basicStep, StdVectorFst.AddState, StdVectorFst.AddArc, tokenArc, Nat.add_assoc]

theorem basicFSA_eq (isyms : SymbolTable) (entry : List Str) :
    basicFSA isyms entry
      = ⟨entry.length + 2, some 0,
          (0, ⟨findId isyms sb, findId isyms sb, 0, 1⟩)
            :: (List.range entry.length).map (tokenArc isyms entry), []⟩ := by
  unfold basicFSA
  rw [foldl_basicStep]
  simp [StdVectorFst.empty, StdVectorFst.AddState, StdVectorFst.AddArc, StdVectorFst.SetStart,
    Nat.add_comm]

theorem findIndexFrom_some (s : Str) (t : SymbolTable) (i j : Nat)
    (h : findIndexFrom s t i = some j) : i ≤ j ∧ j - i < t.length ∧ t.getD (j - i) [] = s := by
  induction t generalizing i with
  | nil => simp [findIndexFrom] at h
  | cons x xs ih =>
    unfold findIndexFrom at h
    split at h
    · cases h; simp; assumption
    · obtain ⟨h1, h2, h3⟩ := ih (i + 1) h
      have : j - i = (j - (i + 1)) + 1 := by omega
      refine ⟨by omega, by simp; omega, ?_⟩
      rw [this]; simpa using h3

theorem findIndexFrom_none (s : Str) (t : SymbolTable) (i : Nat) :
    findIndexFrom s t i = none ↔ s ∉ t := by
  induction t generalizing i with
  | nil => simp [findIndexFrom]
  | cons x xs ih =>
    unfold findIndexFrom
    split
    · rename_i h; simp [h]
    · rename_i h; rw [ih]; simp [Ne.symm h]

/-- A symbol that is in the table is found under an id whose symbol it is. -/
theorem findId_of_mem (t : SymbolTable) (s : Str) (h : s ∈ t) :
    ∃ j : Nat, findId t s = (j : Int) ∧ j < t.length ∧ findSymbol t j = s := by
  unfold findId
  cases hf : findIndexFrom s t 0 with
  | none => exact absurd h ((findIndexFrom_none s t 0).1 hf)
  | some j =>
    obtain ⟨_, h2, h3⟩ := findIndexFrom_some s t 0 j hf
    exact ⟨j, rfl, by simpa using h2, by simpa [findSymbol] using h3⟩

/-- A symbol that is not in the table gets `kNoSymbol = -1`. -/
theorem findId_of_not_mem (t : SymbolTable) (s : Str) (h : s ∉ t) : findId t s = -1 := by
  unfold findId
  rw [(findIndexFrom_none s t 0).2 h]

/-- An id that `Find` returns is `-1` or the index of the symbol. -/
theorem findId_eq_natCast (t : SymbolTable) (s : Str) (j : Nat) (h : findId t s = (j : Int)) :
    j < t.length ∧ findSymbol t j = s := by
  unfold findId at h
  cases hf : findIndexFrom s t 0 with
  | none => rw [hf] at h; simp at h
  | some i =>
    rw [hf] at h
    simp at h
    subst h
    obtain ⟨_, h2, h3⟩ := findIndexFrom_some s t 0 i hf
    exact ⟨by simpa using h2, by simpa [findSymbol] using h3⟩

/-! ## `std::search` and the cluster loop -/

theorem occursAt_iff (c entry : List Str) (p : Nat) (hc : c ≠ []) :
    occursAt c entry p ↔ c.isPrefixOf (entry.drop p) = true := by
  rw [ List.isPrefixOf_iff_prefix, List.prefix_iff_eq_take]
  unfold occursAt
  constructor
  · intro h; exact h.2.symm
  · intro h
    refine ⟨?_, h.symm⟩
    have hl : c.length = ((entry.drop p).take c.length).length := by rw [← h]
    have hpos : 0 < c.length := List.length_pos.2 hc
    simp at hl
    omega

theorem searchAux_spec (c : List Str) (rest : List Str) (pos : Nat) :
    pos ≤ searchAux c rest pos ∧ searchAux c rest pos ≤ pos + rest.length ∧
    (searchAux c rest pos < pos + rest.length →
      c.isPrefixOf (rest.drop (searchAux c rest pos - pos)) = true) ∧
    (∀ q, pos ≤ q → q < searchAux c rest pos → c.isPrefixOf (rest.drop (q - pos)) = false) := by
  induction rest generalizing pos with
  | nil => simp [searchAux]; intro q h1 h2; omega
  | cons x xs ih =>
    unfold searchAux
    split
    · rename_i h
      refine ⟨le_refl _, by omega, ?_, ?_⟩
      · intro _; simpa using h
      · intro q h1 h2; omega
    · rename_i h
      obtain ⟨h1, h2, h3, h4⟩ := ih (pos + 1)
      refine ⟨by omega, by simp; omega, ?_, ?_⟩
      · intro hlt
        have e : searchAux c xs (pos + 1) - pos = (searchAux c xs (pos + 1) - (pos + 1)) + 1 := by
          omega
        rw [e, List.drop_succ_cons]
        apply h3
        simp at hlt; omega
      · intro q hq1 hq2
        by_cases hq : q = pos
        · subst hq
          simp only [Nat.sub_self, List.drop_zero]
          exact Bool.eq_false_iff.2 h
        · have e : q - pos = (q - (pos + 1)) + 1 := by omega
          rw [e, List.drop_succ_cons]
          exact h4 q (by omega) hq2

theorem search_spec (c entry : List Str) (start : Nat) (hc : c ≠ []) (hs : start ≤ entry.length) :
    start ≤ search entry start c ∧ search entry start c ≤ entry.length ∧
    (search entry start c ≠ entry.length → occursAt c entry (search entry start c)) ∧
    (∀ q, start ≤ q → q < search entry start c → ¬ occursAt c entry q) ∧
    (search entry start c = entry.length → ∀ q, start ≤ q → ¬ occursAt c entry q) := by
  obtain ⟨h1, h2, h3, h4⟩ := searchAux_spec c (entry.drop start) start
  have hlen : start + (entry.drop start).length = entry.length := by simp; omega
  rw [hlen] at h2 h3
  have hdrop : ∀ q, start ≤ q → (entry.drop start).drop (q - start) = entry.drop q := by
    intro q hq
    rw [List.drop_drop]
    congr 1; omega
  have hno : ∀ q, start ≤ q → q < search entry start c → ¬ occursAt c entry q := by
    intro q hq1 hq2 hocc
    have := h4 q hq1 hq2
    rw [hdrop q hq1] at this
    rw [occursAt_iff c entry q hc] at hocc
    rw [hocc] at this
    cases this
  refine ⟨h1, h2, ?_, hno, ?_⟩
  · intro hne
    rw [occursAt_iff c entry _ hc]
    have := h3 (lt_of_le_of_ne h2 hne)
    rw [hdrop _ h1] at this
    exact this
  · intro he q hq hocc
    by_cases hlt : q < entry.length
    · exact hno q hq (by rw [he]; exact hlt) hocc
    · have hpos : 0 < c.length := List.length_pos.2 hc
      have := hocc.1
      omega

theorem clusterLoop_eq (entry c : List Str) (id : Int) (hc : c ≠ []) (fuel : Nat) :
    ∀ (start : Nat) (efst : StdVectorFst), start ≤ entry.length → entry.length - start < fuel →
      clusterLoop entry c id fuel start efst
        = some ⟨efst.numStates, efst.start,
            efst.arcs ++ (loopPositions entry c fuel start).map (clusterArc c id),
            efst.finals⟩ := by
  induction fuel with
  | zero => intro start efst _ h; omega
  | succ fuel ih =>
    intro start efst hs hf
    obtain ⟨h1, h2, h3, _, _⟩ := search_spec c entry start hc hs
    unfold clusterLoop loopPositions
    simp only []
    split
    · rename_i hne
      have hocc := (h3 hne).1
      have hpos : 0 < c.length := List.length_pos.2 hc
      rw [ih _ _ hocc (by omega)]
      simp [StdVectorFst.AddArc, clusterArc, Nat.add_right_comm]
    · simp

theorem loopPositions_spec (entry c : List Str) (hc : c ≠ []) (fuel : Nat) :
    ∀ (start : Nat), start ≤ entry.length → entry.length - start < fuel →
      (∀ p ∈ loopPositions entry c fuel start, start ≤ p ∧ occursAt c entry p) ∧
      (loopPositions entry c fuel start).Pairwise (fun p q => p + c.length ≤ q) ∧
      (∀ q, start ≤ q → occursAt c entry q →
        ∃ p ∈ loopPositions entry c fuel start, p ≤ q ∧ q < p + c.length) := by
  induction fuel with
  | zero => intro start _ h; omega
  | succ fuel ih =>
    intro start hs hf
    obtain ⟨h1, h2, h3, h4, h5⟩ := search_spec c entry start hc hs
    unfold loopPositions
    simp only []
    split
    · rename_i hne
      have hocc := h3 hne
      have hpos : 0 < c.length := List.length_pos.2 hc
      obtain ⟨i1, i2, i3⟩ := ih (search entry start c + c.length) hocc.1 (by omega)
      refine ⟨?_, ?_, ?_⟩
      · intro p hp
        rcases List.mem_cons.1 hp with rfl | hp
        · exact ⟨h1, hocc⟩
        · exact ⟨by have := (i1 p hp).1; omega, (i1 p hp).2⟩
      · rw [List.pairwise_cons]
        exact ⟨fun q hq => (i1 q hq).1, i2⟩
      · intro q hq hoq
        by_cases hlt : q < search entry start c + c.length
        · refine ⟨_, List.mem_cons_self _ _, ?_, hlt⟩
          by_contra hcon
          exact h4 q hq (by omega) hoq
        · obtain ⟨p, hp, hp1, hp2⟩ := i3 q (by omega) hoq
          exact ⟨p, List.mem_cons_of_mem _ hp, hp1, hp2⟩
    · rename_i he
      simp only [ne_eq, not_not] at he
      refine ⟨by simp, by simp, ?_⟩
      intro q hq hoq
      exact absurd hoq (h5 he q hq)

theorem addClusterArcs_eq (entry : List Str) (fuel : Nat) (hf : entry.length < fuel)
    (clusters : ClusterMap) :
    ∀ (efst : StdVectorFst), (∀ e ∈ clusters, e.1 ≠ []) →
      addClusterArcs entry fuel clusters efst
        = some ⟨efst.numStates, efst.start,
            efst.arcs ++ clusters.flatMap (clusterArcsOf entry fuel), efst.finals⟩ := by
  induction clusters with
  | nil => intro efst _; simp [addClusterArcs]
  | cons e rest ih =>
    intro efst hne
    obtain ⟨c, id⟩ := e
    unfold addClusterArcs
    rw [clusterLoop_eq entry c id (hne (c, id) (List.mem_cons_self _ _)) fuel 0 efst
      (Nat.zero_le _) (by omega)]
    simp only [Option.some_bind]
    rw [ih _ (fun e he => hne e (List.mem_cons_of_mem _ he))]
    simp [clusterArcsOf, List.flatMap_cons]

/-- The FSA `entryToFSA` returns when no key of `clusters` is empty and every cluster
loop is given more rounds than there are tokens. -/
theorem entryToFSA_eq (isyms : SymbolTable) (clusters : ClusterMap) (fuel : Nat)
    (entry : List Str) (hne : ∀ e ∈ clusters, e.1 ≠ []) (hf : entry.length < fuel) :
    entryToFSA isyms clusters fuel entry
      = some ⟨entry.length + 3, some 0,
          (0, ⟨findId isyms sb, findId isyms sb, 0, 1⟩)
            :: ((List.range entry.length).map (tokenArc isyms entry)
              ++ (clusters.flatMap (clusterArcsOf entry fuel)
              ++ [(entry.length + 1, ⟨findId isyms se, findId isyms se, 0, entry.length + 2⟩)])),
          [(entry.length + 2, 0)]⟩ := by
  unfold entryToFSA
  rw [addClusterArcs_eq entry fuel hf clusters _ hne, basicFSA_eq]
  simp [finishFSA, StdVectorFst.AddState, StdVectorFst.AddArc, StdVectorFst.SetFinal]

/-- Claim C2.  With an empty cluster map and all tokens in `isyms`, `entryToFSA` returns
(whatever the round bound) the FSA with states `0 .. n+2`, start state `0`, the single
final state `n+2` of weight `0`, and exactly the `n+2` arcs `0 -[<s>]-> 1`,
`i+1 -[tokens[i]]-> i+2` for `i < n` and `n+1 -[</s>]-> n+2`, each with equal input and
output label and weight `0`; the label of a token arc is the id under which the token
stands in `isyms`. -/
theorem entryToFSA_basic (isyms : SymbolTable) (tokens : List Str) (fuel : Nat)
    (hin : ∀ t ∈ tokens, t ∈ isyms) :
    entryToFSA isyms [] fuel tokens
      = some ⟨tokens.length + 3, some 0,
          [(0, ⟨findId isyms sb, findId isyms sb, 0, 1⟩)]
            ++ (List.range tokens.length).map
                (fun i => (i + 1, ⟨findId isyms (tokens.getD i []),
                  findId isyms (tokens.getD i []), 0, i + 2⟩))
            ++ [(tokens.length + 1, ⟨findId isyms se, findId isyms se, 0, tokens.length + 2⟩)],
          [(tokens.length + 2, 0)]⟩
    ∧ ∀ i, i < tokens.length → ∃ j : Nat, findId isyms (tokens.getD i []) = (j : Int)
        ∧ j < isyms.length ∧ findSymbol isyms j = tokens.getD i [] := by
  constructor
  · unfold entryToFSA
    simp only [addClusterArcs, Option.map_some', basicFSA_eq]
    simp [finishFSA, StdVectorFst.AddState, StdVectorFst.AddArc, StdVectorFst.SetFinal,
      tokenArc]
  · intro i hi
    apply findId_of_mem
    apply hin
    rw [List.getD_eq_getElem _ _ hi]
    exact List.getElem_mem _

/-- Witness of `entryToFSA_basic`: the tokens `t h e`, all in `exampleSyms`. -/
theorem entryToFSA_basic_witness :
    entryToFSA exampleSyms [] 0 [['t'], ['h'], ['e']]
      = some ⟨6, some 0,
          [(0, ⟨1, 1, 0, 1⟩), (1, ⟨5, 5, 0, 2⟩), (2, ⟨6, 6, 0, 3⟩), (3, ⟨7, 7, 0, 4⟩),
            (4, ⟨2, 2, 0, 5⟩)], [(5, 0)]⟩ :=
  (entryToFSA_basic exampleSyms [['t'], ['h'], ['e']] 0 (by decide)).1

/-! ## The cluster map -/

theorem mem_mapAssign (key : List Str) (val : Int) (m : ClusterMap) (c : List Str) (x : Int)
    (h : (c, x) ∈ mapAssign key val m) : (c = key ∧ x = val) ∨ (c, x) ∈ m := by
  induction m with
  | nil => simp [mapAssign] at h; exact Or.inl h
  | cons e rest ih =>
    obtain ⟨k, v⟩ := e
    unfold mapAssign at h
    split at h
    · rcases List.mem_cons.1 h with h | h
      · left; simpa using h
      · right; exact h
    · split at h
      · rcases List.mem_cons.1 h with h | h
        · right; rw [h]; exact List.mem_cons_self _ _
        · rcases ih h with h | h
          · exact Or.inl h
          · exact Or.inr (List.mem_cons_of_mem _ h)
      · rename_i h1 h2
        have e : key = k := vecLess_tri key k (by simpa using h1) (by simpa using h2)
        rcases List.mem_cons.1 h with h | h
        · left; simp at h; rw [e]; exact h
        · right; exact List.mem_cons_of_mem _ h

theorem mapAssign_mem_self (key : List Str) (val : Int) (m : ClusterMap) :
    (key, val) ∈ mapAssign key val m := by
  induction m with
  | nil => simp [mapAssign]
  | cons e rest ih =>
    obtain ⟨k, v⟩ := e
    unfold mapAssign
    split
    · exact List.mem_cons_self _ _
    · split
      · exact List.mem_cons_of_mem _ ih
      · rename_i h1 h2
        have e : key = k := vecLess_tri key k (by simpa using h1) (by simpa using h2)
        rw [e]; exact List.mem_cons_self _ _

theorem mapAssign_mem_of_ne (key : List Str) (val : Int) (m : ClusterMap) (c : List Str)
    (x : Int) (h : (c, x) ∈ m) (hne : c ≠ key) : (c, x) ∈ mapAssign key val m := by
  induction m with
  | nil => cases h
  | cons e rest ih =>
    obtain ⟨k, v⟩ := e
    unfold mapAssign
    split
    · exact List.mem_cons_of_mem _ h
    · split
      · rcases List.mem_cons.1 h with h | h
        · rw [h]; exact List.mem_cons_self _ _
        · exact List.mem_cons_of_mem _ (ih h)
      · rename_i h1 h2
        have e : key = k := vecLess_tri key k (by simpa using h1) (by simpa using h2)
        rcases List.mem_cons.1 h with h | h
        · simp at h; exact absurd (h.1.trans e.symm) hne
        · exact List.mem_cons_of_mem _ h

theorem sortedKeys_mapAssign (key : List Str) (val : Int) (m : ClusterMap) (hs : sortedKeys m) :
    sortedKeys (mapAssign key val m) := by
  induction m with
  | nil => simp [mapAssign, sortedKeys]
  | cons e rest ih =>
    obtain ⟨k, v⟩ := e
    unfold sortedKeys at hs ih ⊢
    rw [List.pairwise_cons] at hs
    unfold mapAssign
    split
    · rename_i h1
      rw [List.pairwise_cons]
      refine ⟨?_, List.pairwise_cons.2 hs⟩
      intro b hb
      rcases List.mem_cons.1 hb with hb | hb
      · rw [hb]; exact h1
      · exact vecLess_trans _ _ _ h1 (hs.1 b hb)
    · split
      · rename_i h1 h2
        rw [List.pairwise_cons]
        refine ⟨?_, ih hs.2⟩
        intro b hb
        obtain ⟨c, x⟩ := b
        rcases mem_mapAssign key val rest c x hb with hb | hb
        · rw [hb.1]; exact h2
        · exact hs.1 _ hb
      · rw [List.pairwise_cons]
        exact ⟨hs.1, hs.2⟩

theorem sortedKeys_unique (m : ClusterMap) (hs : sortedKeys m) (c : List Str) (x y : Int)
    (hx : (c, x) ∈ m) (hy : (c, y) ∈ m) : x = y := by
  induction m with
  | nil => cases hx
  | cons e rest ih =>
    unfold sortedKeys at hs ih
    rw [List.pairwise_cons] at hs
    rcases List.mem_cons.1 hx with hx | hx <;> rcases List.mem_cons.1 hy with hy | hy
    · rw [← hx] at hy; simp at hy; exact hy.symm
    · have := hs.1 _ hy
      rw [← hx] at this
      simp [vecLess_irrefl] at this
    · have := hs.1 _ hx
      rw [← hy] at this
      simp [vecLess_irrefl] at this
    · exact ih hs.2 hx hy

theorem sortedKeys_nodup (m : ClusterMap) (hs : sortedKeys m) : m.Nodup := by
  unfold sortedKeys at hs
  refine List.Pairwise.imp ?_ hs
  intro a b h hab
  rw [hab, vecLess_irrefl] at h
  cases h

theorem mapFind_eq_some_iff (m : ClusterMap) (hs : sortedKeys m) (c : List Str) (x : Int) :
    mapFind c m = some x ↔ (c, x) ∈ m := by
  induction m with
  | nil => simp [mapFind]
  | cons e rest ih =>
    obtain ⟨k, v⟩ := e
    unfold sortedKeys at hs ih
    rw [List.pairwise_cons] at hs
    unfold mapFind
    split
    · rename_i h1
      constructor
      · intro h; cases h
      · intro h
        rcases List.mem_cons.1 h with h | h
        · simp at h; rw [h.1, vecLess_irrefl] at h1; cases h1
        · have := vecLess_trans _ _ _ h1 (hs.1 _ h)
          simp [vecLess_irrefl] at this
    · split
      · rename_i h1 h2
        rw [ih hs.2]
        constructor
        · intro h; exact List.mem_cons_of_mem _ h
        · intro h
          rcases List.mem_cons.1 h with h | h
          · simp at h; rw [h.1, vecLess_irrefl] at h2; cases h2
          · exact h
      · rename_i h1 h2
        have e : c = k := vecLess_tri c k (by simpa using h1) (by simpa using h2)
        subst e
        constructor
        · intro h; simp at h; rw [h]; exact List.mem_cons_self _ _
        · intro h
          rcases List.mem_cons.1 h with h | h
          · simp at h; rw [h]
          · have := hs.1 _ h
            simp [vecLess_irrefl] at this

/-- What `loadClusters` has built after the symbols with ids below `m`. -/
theorem loadClusters_upTo (isyms : SymbolTable) (m : Nat) :
    sortedKeys ((List.range m).foldl (loadClustersStep isyms) []) ∧
    ∀ (c : List Str) (x : Int), (c, x) ∈ (List.range m).foldl (loadClustersStep isyms) [] ↔
      ∃ i : Nat, x = (i : Int) ∧ i < m ∧ isClusterId isyms i ∧ clusterOf isyms i = c ∧
        ∀ j, i < j → j < m → isClusterId isyms j → clusterOf isyms j ≠ c := by
  induction m with
  | zero => simp [sortedKeys]
  | succ m ih =>
    obtain ⟨ih1, ih2⟩ := ih
    rw [List.range_succ, List.foldl_append]
    simp only [List.foldl_cons, List.foldl_nil]
    generalize (List.range m).foldl (loadClustersStep isyms) [] = M at ih1 ih2
    unfold loadClustersStep
    simp only []
    by_cases hcl : strFind (findSymbol isyms m) tie = true
    · rw [if_pos hcl]
      refine ⟨sortedKeys_mapAssign _ _ _ ih1, ?_⟩
      intro c x
      constructor
      · intro h
        rcases mem_mapAssign _ _ _ _ _ h with h | h
        · exact ⟨m, h.2, Nat.lt_succ_self _, hcl, h.1.symm, fun j h1 h2 => by omega⟩
        · by_cases hc : c = strtokAll tie (findSymbol isyms m)
          · have hm := mapAssign_mem_self (strtokAll tie (findSymbol isyms m)) (m : Int) M
            have hs := sortedKeys_mapAssign (strtokAll tie (findSymbol isyms m)) (m : Int) M ih1
            subst hc
            have := sortedKeys_unique _ hs _ _ _ ‹_› hm
            exact ⟨m, this, Nat.lt_succ_self _, hcl, rfl, fun j h1 h2 => by omega⟩
          · obtain ⟨i, hx, hi, hci, hco, hj⟩ := (ih2 c x).1 h
            refine ⟨i, hx, by omega, hci, hco, ?_⟩
            intro j h1 h2 h3
            by_cases hjm : j = m
            · subst hjm; exact fun h => hc h.symm
            · exact hj j h1 (by omega) h3
      · rintro ⟨i, hx, hi, hci, hco, hj⟩
        by_cases him : i = m
        · subst him
          rw [hx, ← hco]
          exact mapAssign_mem_self _ _ _
        · apply mapAssign_mem_of_ne
          · exact (ih2 c x).2 ⟨i, hx, by omega, hci, hco, fun j h1 h2 => hj j h1 (by omega)⟩
          · intro hc
            exact hj m (by omega) (Nat.lt_succ_self _) hcl hc.symm
    · rw [if_neg hcl]
      refine ⟨ih1, ?_⟩
      intro c x
      rw [ih2 c x]
      constructor
      · rintro ⟨i, hx, hi, hci, hco, hj⟩
        refine ⟨i, hx, by omega, hci, hco, ?_⟩
        intro j h1 h2 h3
        by_cases hjm : j = m
        · subst hjm; exact absurd h3 hcl
        · exact hj j h1 (by omega) h3
      · rintro ⟨i, hx, hi, hci, hco, hj⟩
        have him : i ≠ m := fun h => hcl (h ▸ hci)
        exact ⟨i, hx, by omega, hci, hco, fun j h1 h2 => hj j h1 (by omega)⟩

/-! ## Cluster arcs of `entryToFSA` -/

theorem filter_flatMap_unique {α β : Type} (g : α → List β) (P : β → Bool) (a : α) :
    ∀ (l : List α), l.Nodup → a ∈ l → (∀ b ∈ g a, P b = true) →
      (∀ e ∈ l, e ≠ a → ∀ b ∈ g e, P b = false) → (l.flatMap g).filter P = g a := by
  intro l
  induction l with
  | nil => intro _ h; cases h
  | cons e rest ih =>
    intro hnd hmem hyes hno
    rw [List.nodup_cons] at hnd
    rw [List.flatMap_cons, List.filter_append]
    by_cases hea : e = a
    · subst hea
      have h1 : (g e).filter P = g e := List.filter_eq_self.2 hyes
      have h2 : (rest.flatMap g).filter P = [] := by
        rw [List.filter_eq_nil_iff]
        intro b hb
        obtain ⟨e2, he2, hb2⟩ := List.mem_flatMap.1 hb
        have hne : e2 ≠ e := fun h => hnd.1 (h ▸ he2)
        rw [hno e2 (List.mem_cons_of_mem _ he2) hne b hb2]
        simp
      rw [h1, h2, List.append_nil]
    · have h1 : (g e).filter P = [] := by
        rw [List.filter_eq_nil_iff]
        intro b hb
        rw [hno e (List.mem_cons_self _ _) hea b hb]
        simp
      have hmem2 : a ∈ rest := by
        rcases List.mem_cons.1 hmem with h | h
        · exact absurd h.symm hea
        · exact h
      rw [h1, List.nil_append]
      exact ih hnd.2 hmem2 hyes (fun e2 he2 => hno e2 (List.mem_cons_of_mem _ he2))

theorem loadClusters_mem_iff (isyms : SymbolTable) (c : List Str) (x : Int) :
    (c, x) ∈ loadClusters isyms ↔
      ∃ i : Nat, x = (i : Int) ∧ i < isyms.length ∧ isClusterId isyms i ∧ clusterOf isyms i = c ∧
        ∀ j, i < j → j < isyms.length → isClusterId isyms j → clusterOf isyms j ≠ c :=
  (loadClusters_upTo isyms isyms.length).2 c x

theorem loadClusters_sorted (isyms : SymbolTable) : sortedKeys (loadClusters isyms) :=
  (loadClusters_upTo isyms isyms.length).1

theorem findSymbol_mem (isyms : SymbolTable) (i : Nat) (h : i < isyms.length) :
    findSymbol isyms i ∈ isyms := by
  unfold findSymbol
  rw [List.getD_eq_getElem _ _ h]
  exact List.getElem_mem _

/-- No symbol without a tie is looked up to the id of a cluster. -/
theorem findId_ne_cluster (isyms : SymbolTable) (c : List Str) (k : Int) (t : Str)
    (hmem : (c, k) ∈ loadClusters isyms) (ht : ¬ (t ∈ isyms ∧ strFind t tie = true)) :
    findId isyms t ≠ k := by
  intro h
  obtain ⟨i, hk, hi, hci, _, _⟩ := (loadClusters_mem_iff isyms c k).1 hmem
  rw [hk] at h
  obtain ⟨_, h2⟩ := findId_eq_natCast isyms t i h
  apply ht
  rw [← h2]
  exact ⟨findSymbol_mem isyms i hi, hci⟩

/-- Claim C1 (amended).  Let no key of the cluster map be empty, let no token be a
cluster symbol of `isyms`, and let `(c, k)` be an entry of the cluster map.  Then
`entryToFSA` returns, and the arcs labelled `k` of its FSA are exactly the arcs
`p+1 → p+1+|c|` (input label = output label = `k`, weight `0`) for the positions `p`
of a list `ps` of occurrences of `c` in `tokens` that do not overlap one another and
that every occurrence of `c` overlaps: the occurrences met by a scan that resumes at
the end of each match.  When no two occurrences of `c` overlap, these are all of them. -/
theorem entryToFSA_cluster_arcs (isyms : SymbolTable) (tokens c : List Str) (k : Int)
    (fuel : Nat)
    (hne : ∀ e ∈ loadClusters isyms, e.1 ≠ [])
    (htok : ∀ t ∈ tokens, ¬ (t ∈ isyms ∧ strFind t tie = true))
    (hmem : (c, k) ∈ loadClusters isyms)
    (hfuel : tokens.length < fuel) :
    ∃ (efst : StdVectorFst) (ps : List Nat),
      entryToFSA isyms (loadClusters isyms) fuel tokens = some efst ∧
      efst.arcs.filter (fun a => decide (a.2.ilabel = k ∨ a.2.olabel = k))
        = ps.map (clusterArc c k) ∧
      (∀ p ∈ ps, occursAt c tokens p) ∧
      ps.Pairwise (fun p q => p + c.length ≤ q) ∧
      (∀ q, occursAt c tokens q → ∃ p ∈ ps, p ≤ q ∧ q < p + c.length) ∧
      ((∀ q r, occursAt c tokens q → occursAt c tokens r → q < r → q + c.length ≤ r) →
        ∀ q, occursAt c tokens q → q ∈ ps) := by
  have hc : c ≠ [] := hne (c, k) hmem
  obtain ⟨s1, s2, s3⟩ := loopPositions_spec tokens c hc fuel 0 (Nat.zero_le _) (by omega)
  have s4 : (∀ q r, occursAt c tokens q → occursAt c tokens r → q < r → q + c.length ≤ r) →
      ∀ q, occursAt c tokens q → q ∈ loopPositions tokens c fuel 0 := by
    intro hsep q hq
    obtain ⟨p, hp, hpq, hqp⟩ := s3 q (Nat.zero_le _) hq
    by_cases e : p = q
    · exact e ▸ hp
    · have := hsep p q (s1 p hp).2 hq (by omega)
      omega
  refine ⟨_, loopPositions tokens c fuel 0, entryToFSA_eq isyms _ fuel tokens hne hfuel, ?_,
    fun p hp => (s1 p hp).2, s2, fun q hq => s3 q (Nat.zero_le _) hq, s4⟩
  have hsb : findId isyms sb ≠ k :=
    findId_ne_cluster isyms c k sb hmem (fun h => by have := h.2; revert this; decide)
  have hse : findId isyms se ≠ k :=
    findId_ne_cluster isyms c k se hmem (fun h => by have := h.2; revert this; decide)
  have htoks : ((List.range tokens.length).map (tokenArc isyms tokens)).filter
      (fun a => decide (a.2.ilabel = k ∨ a.2.olabel = k)) = [] := by
    rw [List.filter_eq_nil_iff]
    intro a ha
    obtain ⟨i, hi, rfl⟩ := List.mem_map.1 ha
    have hi2 : i < tokens.length := List.mem_range.1 hi
    have hget : tokens.getD i [] ∈ tokens := by
      rw [List.getD_eq_getElem _ _ hi2]; exact List.getElem_mem _
    have := findId_ne_cluster isyms c k _ hmem (htok _ hget)
    simpa [tokenArc] using this
  have hcl : ((loadClusters isyms).flatMap (clusterArcsOf tokens fuel)).filter
      (fun a => decide (a.2.ilabel = k ∨ a.2.olabel = k))
        = clusterArcsOf tokens fuel (c, k) := by
    apply filter_flatMap_unique _ _ _ _ (sortedKeys_nodup _ (loadClusters_sorted isyms)) hmem
    · intro b hb
      obtain ⟨p, _, rfl⟩ := List.mem_map.1 hb
      simp [clusterArc]
    · intro e he hek b hb
      obtain ⟨p, _, rfl⟩ := List.mem_map.1 hb
      obtain ⟨c2, k2⟩ := e
      have hk : k2 ≠ k := by
        intro h
        subst h
        obtain ⟨i, hk, _, _, hco, _⟩ := (loadClusters_mem_iff isyms c k2).1 hmem
        obtain ⟨i2, hk2, _, _, hco2, _⟩ := (loadClusters_mem_iff isyms c2 k2).1 he
        have : i = i2 := by omega
        subst this
        exact hek (by rw [← hco, ← hco2])
      simp [clusterArc, hk]
  simp only [List.filter_cons, List.filter_append, htoks, hcl, List.filter_nil]
  simp [hsb, hse, clusterArcsOf]

/-- With no empty key in the cluster map, every arc of the FSA that `entryToFSA` returns
leads from a state to a later state that exists. -/
theorem entryToFSA_forward_arcs (isyms : SymbolTable) (clusters : ClusterMap) (fuel : Nat)
    (tokens : List Str) (hne : ∀ e ∈ clusters, e.1 ≠ []) (hf : tokens.length < fuel) :
    ∃ efst, entryToFSA isyms clusters fuel tokens = some efst ∧
      efst.numStates = tokens.length + 3 ∧
      ∀ a ∈ efst.arcs, a.1 < a.2.nextstate ∧ a.2.nextstate ≤ tokens.length + 2 := by
  refine ⟨_, entryToFSA_eq isyms clusters fuel tokens hne hf, rfl, ?_⟩
  intro a ha
  simp only [List.mem_cons, List.mem_append, List.mem_singleton] at ha
  rcases ha with rfl | ha | ha | ha
  · simp
  · obtain ⟨i, hi, rfl⟩ := List.mem_map.1 ha
    have := List.mem_range.1 hi
    simp [tokenArc]; omega
  · obtain ⟨e, he, hb⟩ := List.mem_flatMap.1 ha
    obtain ⟨p, hp, rfl⟩ := List.mem_map.1 hb
    have hc := hne e he
    obtain ⟨s1, _, _⟩ := loopPositions_spec tokens e.1 hc fuel 0 (Nat.zero_le _) (by omega)
    have := (s1 p hp).2.1
    have hpos : 0 < e.1.length := List.length_pos.2 hc
    simp [clusterArc]; omega
  · simp only [List.not_mem_nil, or_false] at ha
    subst ha
    simp

/-- Witness of `entryToFSA_cluster_arcs`: tokens `t h e` with the cluster `t|h`. -/
theorem entryToFSA_cluster_arcs_witness :
    ∃ (efst : StdVectorFst) (ps : List Nat),
      entryToFSA exampleSyms (loadClusters exampleSyms) 4 [['t'], ['h'], ['e']] = some efst ∧
      efst.arcs.filter (fun a => decide (a.2.ilabel = 8 ∨ a.2.olabel = 8))
        = ps.map (clusterArc [['t'], ['h']] 8) ∧
      (∀ p ∈ ps, occursAt [['t'], ['h']] [['t'], ['h'], ['e']] p) ∧
      ps.Pairwise (fun p q => p + [['t'], ['h']].length ≤ q) ∧
      (∀ q, occursAt [['t'], ['h']] [['t'], ['h'], ['e']] q →
        ∃ p ∈ ps, p ≤ q ∧ q < p + [['t'], ['h']].length) ∧
      ((∀ q r, occursAt [['t'], ['h']] [['t'], ['h'], ['e']] q →
          occursAt [['t'], ['h']] [['t'], ['h'], ['e']] r → q < r →
          q + [['t'], ['h']].length ≤ r) →
        ∀ q, occursAt [['t'], ['h']] [['t'], ['h'], ['e']] q → q ∈ ps) :=
  entryToFSA_cluster_arcs exampleSyms [['t'], ['h'], ['e']] [['t'], ['h']] 8 4
    (by decide) (by decide) (by decide) (by decide)

/-- Claim C1 fails for overlapping occurrences: in `a a a` the cluster `a|a` (id 4)
occurs at the positions 0 and 1, and the FSA has the arc `1 → 3` for position 0 only. -/
theorem entryToFSA_overlap_counterexample :
    ([['a'], ['a']], (4 : Int)) ∈ loadClusters exampleSyms ∧
    occursAt [['a'], ['a']] [['a'], ['a'], ['a']] 0 ∧
    occursAt [['a'], ['a']] [['a'], ['a'], ['a']] 1 ∧
    ∃ efst, entryToFSA exampleSyms (loadClusters exampleSyms) 4 [['a'], ['a'], ['a']]
        = some efst ∧
      efst.arcs.filter (fun a => decide (a.2.ilabel = 4 ∨ a.2.olabel = 4))
        = [clusterArc [['a'], ['a']] 4 0] ∧
      clusterArc [['a'], ['a']] 4 1 ∉ efst.arcs := by
  refine ⟨by decide, by decide, by decide, _, rfl, by decide, by decide⟩

/-! ## The empty cluster -/

theorem search_nil_cluster (x : Str) (xs : List Str) : search (x :: xs) 0 [] = 0 := by
  simp [search, searchAux]

theorem clusterLoop_nil_cluster (x : Str) (xs : List Str) (id : Int) (fuel : Nat) :
    ∀ efst, clusterLoop (x :: xs) [] id fuel 0 efst = none := by
  induction fuel with
  | zero => intro efst; rfl
  | succ fuel ih =>
    intro efst
    unfold clusterLoop
    simp only [search_nil_cluster, List.length_cons, List.length_nil, Nat.add_zero]
    rw [if_pos (by omega)]
    exact ih _

theorem clusterLoop_nil_cluster_rounds (x : Str) (xs : List Str) (id : Int) (m : Nat) :
    ∀ (fuel : Nat) (efst : StdVectorFst),
      clusterLoop (x :: xs) [] id (m + fuel) 0 efst
        = clusterLoop (x :: xs) [] id fuel 0
            ⟨efst.numStates, efst.start,
              efst.arcs ++ List.replicate m (1, ⟨id, id, 0, 1⟩), efst.finals⟩ := by
  induction m with
  | zero => intro fuel efst; simp
  | succ m ih =>
    intro fuel efst
    have e : m + 1 + fuel = (m + fuel) + 1 := by omega
    rw [e]
    conv_lhs => unfold clusterLoop
    simp only [search_nil_cluster, List.length_cons, List.length_nil, Nat.add_zero]
    rw [if_pos (by omega), ih]
    simp [StdVectorFst.AddArc, List.replicate_succ]

theorem addClusterArcs_nil_cluster (x : Str) (xs : List Str) (fuel : Nat) (k : Int)
    (clusters : ClusterMap) (h : ([], k) ∈ clusters) :
    ∀ efst, addClusterArcs (x :: xs) fuel clusters efst = none := by
  induction clusters with
  | nil => cases h
  | cons e rest ih =>
    intro efst
    obtain ⟨c, id⟩ := e
    unfold addClusterArcs
    rcases List.mem_cons.1 h with h | h
    · have hc : c = [] := by simp at h; exact h.1
      subst hc
      rw [clusterLoop_nil_cluster]
      rfl
    · cases clusterLoop (x :: xs) c id fuel 0 efst with
      | none => rfl
      | some f => exact ih h f

/-- Whenever the cluster map has the empty cluster as a key, `entryToFSA` does not
return on a non-empty token sequence, whatever the round bound. -/
theorem entryToFSA_nil_cluster (isyms : SymbolTable) (clusters : ClusterMap) (fuel : Nat)
    (x : Str) (xs : List Str) (k : Int) (h : ([], k) ∈ clusters) :
    entryToFSA isyms clusters fuel (x :: xs) = none := by
  unfold entryToFSA
  rw [addClusterArcs_nil_cluster x xs fuel k clusters h]
  rfl

/-- Claim C3 at the symbol table `tieSyms`, whose symbol `|` makes `loadClusters` store
the empty cluster under id 4: on the one token `a` the cluster loop of `entryToFSA`
does not finish within any number of rounds, so no FSA is returned, and each of its
rounds adds the arc `1 → 1` labelled 4, a self-loop. -/
theorem entryToFSA_tie_symbol_diverges :
    loadClusters tieSyms = [([], 4)] ∧
    (∀ fuel, entryToFSA tieSyms (loadClusters tieSyms) fuel [['a']] = none) ∧
    (∀ (m fuel : Nat) (efst : StdVectorFst),
      clusterLoop [['a']] [] 4 (m + fuel) 0 efst
        = clusterLoop [['a']] [] 4 fuel 0
            ⟨efst.numStates, efst.start,
              efst.arcs ++ List.replicate m (1, ⟨4, 4, 0, 1⟩), efst.finals⟩) := by
  have h : loadClusters tieSyms = [([], 4)] := by decide
  refine ⟨h, ?_, ?_⟩
  · intro fuel
    rw [h]
    simp [entryToFSA, addClusterArcs, clusterLoop_nil_cluster]
  · intro m fuel efst
    exact clusterLoop_nil_cluster_rounds _ _ 4 m fuel efst

/-! ## Tokens that are not in the symbol table -/

/-- Claim C4 (amended).  `entryToFSA` has no error exit.  For a token at index `i` that
is not in `isyms`, `Find` gives `kNoSymbol = -1`, and (no key of the cluster map being
empty) `entryToFSA` returns an FSA that has the arc `i+1 → i+2` with input and output
label `-1`; `phoneticize` passes this FSA on to composition and returns the paths
found. -/
theorem entryToFSA_unknown_token {F W : Type} (ops : DecoderOps F W) (isyms : SymbolTable)
    (clusters : ClusterMap) (fuel : Nat) (tokens : List Str) (nbest : Int) (i : Nat)
    (hne : ∀ e ∈ clusters, e.1 ≠ []) (hf : tokens.length < fuel)
    (hi : i < tokens.length) (hunk : tokens.getD i [] ∉ isyms) :
    ∃ efst, entryToFSA isyms clusters fuel tokens = some efst ∧
      (i + 1, (⟨-1, -1, 0, i + 2⟩ : StdArc)) ∈ efst.arcs ∧
      phoneticize ops isyms clusters fuel tokens nbest
        = some (ops.findAllStrings (ops.RmEpsilon (ops.ShortestPath
            (ops.Project (ops.Compose efst)) (if nbest > 1 then 500 else 1)))) := by
  refine ⟨_, entryToFSA_eq isyms clusters fuel tokens hne hf, ?_, ?_⟩
  · apply List.mem_cons_of_mem
    apply List.mem_append_left
    apply List.mem_map.2
    refine ⟨i, List.mem_range.2 hi, ?_⟩
    simp only [tokenArc, findId_of_not_mem isyms _ hunk]
  · unfold phoneticize
    rw [entryToFSA_eq isyms clusters fuel tokens hne hf]
    simp only [Option.map_some']
    split <;> rfl

/-- Witness of `entryToFSA_unknown_token`: the token `z` is not in `exampleSyms`. -/
theorem entryToFSA_unknown_token_witness :
    ∃ efst, entryToFSA exampleSyms (loadClusters exampleSyms) 2 [['z']] = some efst ∧
      (0 + 1, (⟨-1, -1, 0, 0 + 2⟩ : StdArc)) ∈ efst.arcs ∧
      phoneticize countingOps exampleSyms (loadClusters exampleSyms) 2 [['z']] 1
        = some (countingOps.findAllStrings (countingOps.RmEpsilon (countingOps.ShortestPath
            (countingOps.Project (countingOps.Compose efst))
            (if (1 : Int) > 1 then 500 else 1)))) :=
  entryToFSA_unknown_token countingOps exampleSyms (loadClusters exampleSyms) 2 [['z']] 1 0
    (by decide) (by decide) (by decide) (by decide)

/-- Claim C4 fails on the token `z`, which is not in `exampleSyms`: `entryToFSA` returns
an FSA, whose arc for `z` is labelled `-1`. -/
theorem entryToFSA_unknown_counterexample :
    ['z'] ∉ exampleSyms ∧
    entryToFSA exampleSyms (loadClusters exampleSyms) 2 [['z']]
      = some ⟨4, some 0,
          [(0, ⟨1, 1, 0, 1⟩), (1, ⟨-1, -1, 0, 2⟩), (2, ⟨2, 2, 0, 3⟩)], [(3, 0)]⟩ := by
  constructor <;> decide

/-! ## What `strtok` yields, and the entries of `clusters` -/

theorem strtokLoop_run (delims : Str) (p : Str) (hp : ∀ ch ∈ p, ch ∉ delims) :
    ∀ (rest cur : Str), strtokLoop delims (p ++ rest) cur = strtokLoop delims rest (cur ++ p) := by
  induction p with
  | nil => intro rest cur; simp
  | cons ch p ih =>
    intro rest cur
    have h1 : ch ∉ delims := hp ch (List.mem_cons_self _ _)
    have h2 : ∀ c ∈ p, c ∉ delims := fun c hc => hp c (List.mem_cons_of_mem _ hc)
    have e : strtokLoop delims (ch :: (p ++ rest)) cur
        = strtokLoop delims (p ++ rest) (cur ++ [ch]) := by
      simp [strtokLoop, h1]
    rw [List.cons_append, e, ih h2]
    simp

theorem cstr_eq_self (s : Str) (h : Char.ofNat 0 ∉ s) : cstr s = s := by
  unfold cstr
  rw [List.takeWhile_eq_self_iff]
  intro c hc
  simp only [bne_iff_ne, ne_eq]
  intro e
  exact h (e ▸ hc)

theorem intercalate_single (p : Str) : tie.intercalate [p] = p := by
  simp [List.intercalate]

theorem intercalate_cons_cons (p q : Str) (rest : List Str) :
    tie.intercalate (p :: q :: rest) = p ++ ('|' :: tie.intercalate (q :: rest)) := by
  simp [List.intercalate, tie]

theorem mem_intercalate (ps : List Str) (ch : Char) (h : ch ∈ tie.intercalate ps) :
    ch = '|' ∨ ∃ p ∈ ps, ch ∈ p := by
  induction ps with
  | nil => simp [List.intercalate] at h
  | cons p rest ih =>
    cases rest with
    | nil =>
      rw [intercalate_single] at h
      exact Or.inr ⟨p, List.mem_cons_self _ _, h⟩
    | cons q rest =>
      rw [intercalate_cons_cons] at h
      rcases List.mem_append.1 h with h | h
      · exact Or.inr ⟨p, List.mem_cons_self _ _, h⟩
      · rcases List.mem_cons.1 h with h | h
        · exact Or.inl h
        · rcases ih h with h | ⟨r, hr, hc⟩
          · exact Or.inl h
          · exact Or.inr ⟨r, List.mem_cons_of_mem _ hr, hc⟩

theorem strtokLoop_intercalate (ps : List Str)
    (hp : ∀ p ∈ ps, p ≠ [] ∧ ∀ ch ∈ p, ch ∉ tie) :
    strtokLoop tie (tie.intercalate ps) [] = ps := by
  induction ps with
  | nil => simp [List.intercalate, strtokLoop]
  | cons p rest ih =>
    have hp1 := hp p (List.mem_cons_self _ _)
    have hrest : ∀ q ∈ rest, q ≠ [] ∧ ∀ ch ∈ q, ch ∉ tie :=
      fun q hq => hp q (List.mem_cons_of_mem _ hq)
    cases rest with
    | nil =>
      have e : tie.intercalate [p] = p ++ [] := by simp [List.intercalate]
      rw [e, strtokLoop_run tie p hp1.2]
      simp [strtokLoop, hp1.1]
    | cons q rest =>
      have e : strtokLoop tie ('|' :: tie.intercalate (q :: rest)) ([] ++ p)
          = p :: strtokLoop tie (tie.intercalate (q :: rest)) [] := by
        simp [strtokLoop, tie, hp1.1]
      rw [intercalate_cons_cons, strtokLoop_run tie p hp1.2, e, ih hrest]

/-- On a symbol that joins non-empty tokens free of tie and NUL characters by single
ties, `strtok` yields those tokens. -/
theorem strtokAll_intercalate (ps : List Str)
    (hp : ∀ p ∈ ps, p ≠ [] ∧ ∀ ch ∈ p, ch ∉ tie ∧ ch ≠ Char.ofNat 0) :
    strtokAll tie (tie.intercalate ps) = ps := by
  unfold strtokAll
  rw [cstr_eq_self, strtokLoop_intercalate ps
    (fun p h => ⟨(hp p h).1, fun ch hc => ((hp p h).2 ch hc).1⟩)]
  intro h
  rcases mem_intercalate ps _ h with h | ⟨p, hp1, hc⟩
  · revert h; decide
  · exact ((hp p hp1).2 _ hc).2 rfl

/-- Claim C5 (amended).  After `loadClusters` the map `clusters` holds `c ↦ x` exactly
when `x` is the largest id of a symbol that contains the tie and that `strtok` splits
into the token sequence `c`; a lookup finds exactly these entries, and the keys are
pairwise distinct.  The tokens `strtok` yields are the non-empty pieces between ties:
for a symbol that joins non-empty tokens without tie or NUL by single ties, they are
those tokens. -/
theorem loadClusters_entries (isyms : SymbolTable) (c : List Str) (x : Int) :
    ((c, x) ∈ loadClusters isyms ↔
      ∃ i : Nat, x = (i : Int) ∧ i < isyms.length ∧ strFind (findSymbol isyms i) tie = true ∧
        strtokAll tie (findSymbol isyms i) = c ∧
        ∀ j, i < j → j < isyms.length → strFind (findSymbol isyms j) tie = true →
          strtokAll tie (findSymbol isyms j) ≠ c) ∧
    (mapFind c (loadClusters isyms) = some x ↔ (c, x) ∈ loadClusters isyms) ∧
    ((loadClusters isyms).map Prod.fst).Nodup ∧
    (∀ ps : List Str, (∀ p ∈ ps, p ≠ [] ∧ ∀ ch ∈ p, ch ∉ tie ∧ ch ≠ Char.ofNat 0) →
      strtokAll tie (tie.intercalate ps) = ps) := by
  refine ⟨loadClusters_mem_iff isyms c x,
    mapFind_eq_some_iff _ (loadClusters_sorted isyms) c x, ?_, strtokAll_intercalate⟩
  have hs := loadClusters_sorted isyms
  unfold sortedKeys at hs
  rw [List.Nodup, List.pairwise_map]
  refine List.Pairwise.imp ?_ hs
  intro a b h hab
  rw [hab, vecLess_irrefl] at h
  cases h

/-- Witness of `loadClusters_entries`: the entries for `exampleSyms`, and the tokens
of `t|h`. -/
theorem loadClusters_entries_witness :
    loadClusters exampleSyms = [([['a'], ['a']], 4), ([['t'], ['h']], 8)] ∧
    mapFind [['t'], ['h']] (loadClusters exampleSyms) = some 8 ∧
    strtokAll tie (tie.intercalate [['t'], ['h']]) = [['t'], ['h']] :=
  ⟨by decide,
    (loadClusters_entries exampleSyms [['t'], ['h']] 8).2.1.2 (by decide),
    (loadClusters_entries exampleSyms [['t'], ['h']] 8).2.2.2 [['t'], ['h']] (by decide)⟩

/-- Claim C5 fails on `doubleTieSyms`: the distinct symbols `a|b` (id 0) and `a||b`
(id 1) both contain the tie and both give the tokens `a`, `b`; `clusters` has the one
entry `[a, b] ↦ 1`, so the id 0 is not stored under the tokens of `a|b`. -/
theorem loadClusters_counterexample :
    doubleTieSyms.Nodup ∧
    strFind (findSymbol doubleTieSyms 0) tie = true ∧
    strFind (findSymbol doubleTieSyms 1) tie = true ∧
    strtokAll tie (findSymbol doubleTieSyms 0) = [['a'], ['b']] ∧
    loadClusters doubleTieSyms = [([['a'], ['b']], 1)] ∧
    mapFind (strtokAll tie (findSymbol doubleTieSyms 0)) (loadClusters doubleTieSyms) ≠ some 0 := by
  decide

/-! ## `printPaths` -/

theorem printLoop_eq {W : Type} (fmt : W → Str) (nbest : Nat) (correct : Str)
    (paths : List (PathData W)) :
    ∀ (k : Nat) (out : Str), printLoop fmt nbest correct k paths out
      = out ++ ((paths.take (nbest - k)).map (printLine fmt correct)).flatten := by
  induction paths with
  | nil => intro k out; simp [printLoop]
  | cons p rest ih =>
    intro k out
    unfold printLoop
    split
    · rename_i h
      have e : nbest - k = 0 := by omega
      simp [e]
    · rename_i h
      have e : nbest - k = (nbest - (k + 1)) + 1 := by omega
      rw [ih, e, List.take_succ_cons]
      simp

theorem space_intercalate_cons_cons (p q : Str) (rest : List Str) :
    [' '].intercalate (p :: q :: rest) = p ++ (' ' :: [' '].intercalate (q :: rest)) := by
  simp [List.intercalate]

theorem getD_append_length (pre : List Str) (x : Str) (rest : List Str) :
    (pre ++ x :: rest).getD pre.length [] = x := by
  induction pre with
  | nil => rfl
  | cons a as ih => simpa using ih

theorem foldl_renderStep (suf : List Str) :
    ∀ (pre : List Str) (acc : Str),
      (List.range' pre.length suf.length).foldl (renderStep (pre ++ suf)) acc
        = acc ++ [' '].intercalate
            (suf.map fun t => if t ≠ tie then replaceChar t '|' ' ' else t) := by
  induction suf with
  | nil => intro pre acc; simp [List.intercalate]
  | cons x rest ih =>
    intro pre acc
    have hget : (pre ++ x :: rest).getD pre.length [] = x := getD_append_length pre x rest
    have hassoc : pre ++ x :: rest = (pre ++ [x]) ++ rest := by simp
    have hlen : (pre ++ [x]).length = pre.length + 1 := by simp
    rw [List.length_cons, List.range'_succ, List.foldl_cons]
    have hstep : renderStep (pre ++ x :: rest) acc pre.length
        = acc ++ (if x ≠ tie then replaceChar x '|' ' ' else x)
            ++ (if rest = [] then [] else [' ']) := by
      unfold renderStep
      simp only [hget]
      cases rest with
      | nil => simp
      | cons y ys => simp
    rw [hstep, hassoc, ← hlen, ih (pre ++ [x])]
    cases rest with
    | nil => simp [List.intercalate]
    | cons y ys =>
      simp only [List.map_cons]
      rw [space_intercalate_cons_cons]
      simp

theorem renderPath_eq (path : List Str) :
    renderPath path
      = [' '].intercalate (path.map fun t => if t ≠ tie then replaceChar t '|' ' ' else t) := by
  have := foldl_renderStep path [] []
  simp only [List.nil_append, List.length_nil] at this
  unfold renderPath
  rw [List.range_eq_range', this]

theorem mem_space_intercalate (ps : List Str) (ch : Char) (h : ch ∈ [' '].intercalate ps) :
    ch = ' ' ∨ ∃ p ∈ ps, ch ∈ p := by
  induction ps with
  | nil => simp [List.intercalate] at h
  | cons p rest ih =>
    cases rest with
    | nil =>
      have e : [' '].intercalate [p] = p := by simp [List.intercalate]
      rw [e] at h
      exact Or.inr ⟨p, List.mem_cons_self _ _, h⟩
    | cons q rest =>
      rw [space_intercalate_cons_cons] at h
      rcases List.mem_append.1 h with h | h
      · exact Or.inr ⟨p, List.mem_cons_self _ _, h⟩
      · rcases List.mem_cons.1 h with h | h
        · exact Or.inl h
        · rcases ih h with h | ⟨r, hr, hc⟩
          · exact Or.inl h
          · exact Or.inr ⟨r, List.mem_cons_of_mem _ hr, hc⟩

theorem not_mem_replaceChar (s : Str) : '|' ∉ replaceChar s '|' ' ' := by
  unfold replaceChar
  intro h
  obtain ⟨c, _, hc⟩ := List.mem_map.1 h
  split at hc
  · revert hc; decide
  · rename_i hne; exact hne hc

/-- The text `printPaths` writes: the lines of the first `nbest` paths, one after the
other, with no path left out. -/
theorem printPaths_eq {W : Type} (fmt : W → Str) (paths : List (PathData W))
    (nbest : Int) (correct : Str) :
    printPaths fmt paths nbest correct
      = ((paths.take (nbest % 2 ^ 64).toNat).map (printLine fmt correct)).flatten := by
  unfold printPaths
  rw [printLoop_eq]
  simp only [List.nil_append, Nat.sub_zero]

/-- Claim C7 (amended).  `printPaths` writes the lines of the first `nbest` paths, and
the rendered string of a path is its tokens joined by single spaces, where every token
other than the tie token `|` itself has each `|` replaced by a space and a token equal
to `|` is left as it is; so the rendered string of a path none of whose tokens is `|`
contains no `|`. -/
theorem printPaths_rendering {W : Type} (fmt : W → Str) (paths : List (PathData W))
    (nbest : Int) (correct : Str) (path : List Str) :
    printPaths fmt paths nbest correct
      = ((paths.take (nbest % 2 ^ 64).toNat).map fun p =>
          fmt p.pathcost ++ ['\t'] ++ renderPath p.path
            ++ (if correct ≠ [] then '\t' :: correct else []) ++ ['\n']).flatten ∧
    renderPath path
      = [' '].intercalate (path.map fun t => if t ≠ tie then replaceChar t '|' ' ' else t) ∧
    ((∀ t ∈ path, t ≠ tie) → '|' ∉ renderPath path) := by
  refine ⟨?_, renderPath_eq path, ?_⟩
  · rw [printPaths_eq]
    rfl
  · intro hno h
    rw [renderPath_eq] at h
    rcases mem_space_intercalate _ _ h with h | ⟨p, hp, hc⟩
    · revert h; decide
    · obtain ⟨t, ht, rfl⟩ := List.mem_map.1 hp
      rw [if_pos (hno t ht)] at hc
      exact not_mem_replaceChar t hc

/-- Witness of `printPaths_rendering`: the token `a|b` is rendered as `a b`. -/
theorem printPaths_rendering_witness :
    renderPath [['a', '|', 'b'], ['c']] = ['a', ' ', 'b', ' ', 'c'] ∧
    '|' ∉ renderPath [['a', '|', 'b'], ['c']] :=
  ⟨by decide,
    (printPaths_rendering (fun w : Str => w) [] 1 [] [['a', '|', 'b'], ['c']]).2.2 (by decide)⟩

/-- Claim C7 fails on a path with the token `|`: it is rendered as `|`. -/
theorem printPaths_tie_counterexample :
    printPaths (fun w : Str => w) [⟨['0'], [['a'], ['|'], ['b']]⟩] 1 []
      = ['0', '\t', 'a', ' ', '|', ' ', 'b', '\n'] ∧
    '|' ∈ renderPath [['a'], ['|'], ['b']] := by
  decide

/-- Claim C6 at two paths with the same tokens and `nbest = 2`: `printPaths` writes
both, so two lines carry the same rendered string `a`. -/
theorem printPaths_duplicate :
    printPaths (fun w : Str => w) [⟨['1'], [['a']]⟩, ⟨['2'], [['a']]⟩] 2 []
      = ['1', '\t', 'a', '\n', '2', '\t', 'a', '\n'] := by
  decide

/-! ## `write_alignments` -/

theorem emit_emit (ofileOk : Bool) (out : Output) (a b : Str) :
    emit ofileOk (emit ofileOk out a) b = emit ofileOk out (a ++ b) := by
  unfold emit
  cases ofileOk <;> simp

theorem emit_nil (ofileOk : Bool) (out : Output) : emit ofileOk out [] = out := by
  unfold emit
  cases ofileOk <;> simp

theorem foldl_writeSymbol (ofileOk : Bool) (j : Nat) (suf : List Str) :
    ∀ (pre : List Str) (out : Output),
      (List.range' pre.length suf.length).foldl (writeSymbol ofileOk j (pre ++ suf)) out
        = emit ofileOk out
            (suf.map fun s => s ++ if j < (pre ++ suf).length then [' '] else []).flatten := by
  induction suf with
  | nil => intro pre out; simp [emit_nil]
  | cons x rest ih =>
    intro pre out
    have hget : (pre ++ x :: rest).getD pre.length [] = x := getD_append_length pre x rest
    have hassoc : pre ++ x :: rest = (pre ++ [x]) ++ rest := by simp
    have hlen : (pre ++ [x]).length = pre.length + 1 := by simp
    rw [List.length_cons, List.range'_succ, List.foldl_cons]
    have hstep : writeSymbol ofileOk j (pre ++ x :: rest) out pre.length
        = emit ofileOk out (x ++ if j < (pre ++ x :: rest).length then [' '] else []) := by
      unfold writeSymbol
      simp only [hget]
      split
      · rw [emit_emit]
      · simp
    rw [hstep, hassoc, ← hlen, ih (pre ++ [x]), emit_emit]
    simp

/-- The line `write_alignments` writes for the path with index `j`: each symbol is
followed by a space when `j` is below the number of symbols of the path, and by nothing
otherwise. -/
theorem writePaths_cons {W : Type} (ofileOk : Bool) (j : Nat) (p : PathData W)
    (rest : List (PathData W)) (out : Output) :
    writePaths ofileOk j (p :: rest) out
      = writePaths ofileOk (j + 1) rest
          (emit ofileOk out
            ((p.path.map fun s => s ++ if j < p.path.length then [' '] else []).flatten
              ++ ['\n'])) := by
  have h := foldl_writeSymbol ofileOk j p.path [] out
  simp only [List.nil_append, List.length_nil] at h
  rw [writePaths, List.range_eq_range', h, emit_emit]

/-- Claim C8 at a pair with three paths of two joint symbols each: the lines of the
paths with index 0 and 1 have a space after every symbol, the line of the path with
index 2 has none, its symbols `a}x` and `b}y` are written as `a}xb}y`. -/
theorem write_alignments_third_path :
    (write_alignments true
      [(3, [(⟨0, [['a', '}', 'x'], ['b', '}', 'y']]⟩ : PathData Nat),
            ⟨0, [['a', '}', 'x'], ['b', '}', 'y']]⟩,
            ⟨0, [['a', '}', 'x'], ['b', '}', 'y']]⟩])]).ofile
      = ['a', '}', 'x', ' ', 'b', '}', 'y', ' ', '\n',
         'a', '}', 'x', ' ', 'b', '}', 'y', ' ', '\n',
         'a', '}', 'x', 'b', '}', 'y', '\n'] := by
  decide

/-! ## `load_input_file` and `main` -/

theorem loadLines_ok (tokenize : Str → Str → List Str) (delim s1 s2 : Str) (lines : List Str) :
    ∀ (calls : List (List Str × List Str)),
      (∀ l ∈ lines, l ≠ [] → 2 ≤ (tokenize l delim).length) →
      loadLines tokenize delim s1 s2 lines calls
        = .ok (calls ++ (lines.filter fun l => decide (l ≠ [])).map fun l =>
            (tokenize ((tokenize l delim).getD 0 []) s1,
              tokenize ((tokenize l delim).getD 1 []) s2)) := by
  induction lines with
  | nil => intro calls _; simp [loadLines]
  | cons l rest ih =>
    intro calls h
    have hrest : ∀ l ∈ rest, l ≠ [] → 2 ≤ (tokenize l delim).length :=
      fun x hx => h x (List.mem_cons_of_mem _ hx)
    unfold loadLines
    by_cases hl : l = []
    · subst hl
      simp only [loadLine, if_true]
      rw [ih calls hrest]
      simp
    · have h2 := h l (List.mem_cons_self _ _) hl
      have e0 : vecAt (tokenize l delim) 0 = .ok ((tokenize l delim).getD 0 []) := by
        unfold vecAt
        rw [List.getD_eq_getElem _ _ (by omega), List.get?_eq_get (by omega)]
        rfl
      have e1 : vecAt (tokenize l delim) 1 = .ok ((tokenize l delim).getD 1 []) := by
        unfold vecAt
        rw [List.getD_eq_getElem _ _ (by omega), List.get?_eq_get (by omega)]
        rfl
      simp only [loadLine, if_neg hl, e0, e1]
      rw [ih _ hrest]
      simp [hl]

theorem loadLines_error (tokenize : Str → Str → List Str) (delim s1 s2 : Str)
    (lines : List Str) :
    ∀ (calls : List (List Str × List Str)),
      (∃ l ∈ lines, l ≠ [] ∧ (tokenize l delim).length < 2) →
      loadLines tokenize delim s1 s2 lines calls = .error Failure.out_of_range := by
  induction lines with
  | nil => intro calls h; obtain ⟨l, hl, _⟩ := h; cases hl
  | cons l rest ih =>
    intro calls h
    unfold loadLines
    cases hline : loadLine tokenize delim s1 s2 calls l with
    | error e => cases e; rfl
    | ok calls2 =>
      simp only []
      apply ih
      obtain ⟨x, hx, hx1, hx2⟩ := h
      rcases List.mem_cons.1 hx with hx | hx
      · subst hx
        exfalso
        unfold loadLine at hline
        rw [if_neg hx1] at hline
        have e1 : vecAt (tokenize x delim) 1 = .error Failure.out_of_range := by
          unfold vecAt
          rw [List.get?_eq_none.2 (by omega)]
        simp only [e1] at hline
        split at hline <;> cases hline
      · exact ⟨x, hx, hx1, hx2⟩

/-- Claim C9 (amended).  When every non-empty line splits into at least two fields,
`load_input_file` completes without an exception, skips the empty lines, and calls
`entry2alignfst` once, in file order, for each non-empty line, with the token sequences
of its first and of its second field.  A non-empty line with fewer than two fields is
not skipped: it ends `load_input_file` with `std::out_of_range`. -/
theorem load_input_file_calls (tokenize : Str → Str → List Str) (lines : List Str)
    (delim s1_char_delim s2_char_delim : Str) :
    ((∀ l ∈ lines, l ≠ [] → 2 ≤ (tokenize l delim).length) →
      load_input_file tokenize (some lines) delim s1_char_delim s2_char_delim
        = .ok ((lines.filter fun l => decide (l ≠ [])).map fun l =>
            (tokenize ((tokenize l delim).getD 0 []) s1_char_delim,
              tokenize ((tokenize l delim).getD 1 []) s2_char_delim))) ∧
    ((∃ l ∈ lines, l ≠ [] ∧ (tokenize l delim).length < 2) →
      load_input_file tokenize (some lines) delim s1_char_delim s2_char_delim
        = .error Failure.out_of_range) := by
  constructor
  · intro h
    unfold load_input_file
    simp only []
    rw [loadLines_ok tokenize delim s1_char_delim s2_char_delim lines [] h]
    simp
  · intro h
    exact loadLines_error tokenize delim s1_char_delim s2_char_delim lines [] h

/-- Witness of `load_input_file_calls`: the lines `ab<TAB>x y`, the empty line and
`c<TAB>z` give two calls; the line `abc` alone gives `std::out_of_range`. -/
theorem load_input_file_calls_witness :
    load_input_file splitFields
        (some [['a', 'b', '\t', 'x', ' ', 'y'], [], ['c', '\t', 'z']]) ['\t'] [] [' ']
      = .ok [([['a'], ['b']], [['x'], ['y']]), ([['c']], [['z']])] ∧
    load_input_file splitFields (some [['a', 'b', 'c']]) ['\t'] [] [' ']
      = .error Failure.out_of_range :=
  ⟨(load_input_file_calls splitFields [['a', 'b', '\t', 'x', ' ', 'y'], [], ['c', '\t', 'z']]
      ['\t'] [] [' ']).1 (by decide),
    (load_input_file_calls splitFields [['a', 'b', 'c']] ['\t'] [] [' ']).2 (by decide)⟩

/-- Claim C9 fails on the line `abc`, which has no tab: `load_input_file` does not skip
it but ends with `std::out_of_range`, whereas the claim has it complete with no call. -/
theorem load_input_file_counterexample :
    splitFields ['a', 'b', 'c'] ['\t'] = [['a', 'b', 'c']] ∧
    load_input_file splitFields (some [['a', 'b', 'c']]) ['\t'] [] [' ']
      = .error Failure.out_of_range ∧
    load_input_file splitFields (some [['a', 'b', 'c']]) ['\t'] [] [' '] ≠ .ok [] := by
  refine ⟨by decide, rfl, ?_⟩
  intro h
  cases h

/-- Claim C10 on the one-line dictionary `abc<TAB>x y z` with every later step
succeeding: `main` returns 1. -/
theorem main_returns_one :
    load_input_file splitFields
        (some [['a', 'b', 'c', '\t', 'x', ' ', 'y', ' ', 'z']]) ['\t'] [] [' ']
      = .ok [([['a'], ['b'], ['c']], [['x'], ['y'], ['z']])] ∧
    main splitFields (some [['a', 'b', 'c', '\t', 'x', ' ', 'y', ' ', 'z']]) ['\t'] [] [' ']
        (fun _ => .ok ())
      = .ok 1 := by
  constructor <;> rfl

/-- Whatever the input, a value that `main` returns is 1. -/
theorem main_value (tokenize : Str → Str → List Str) (file : Option (List Str))
    (delim s1 s2 : Str) (run : List (List Str × List Str) → Except Failure Unit) (r : Int)
    (h : main tokenize file delim s1 s2 run = .ok r) : r = 1 := by
  unfold main at h
  split at h
  · cases h
  · split at h
    · cases h
    · cases h; rfl

end Phonetisaurus
